import Mathlib

/-!
Verification of the percent-encoding library (`src/enc.rs`).

Bytes are modelled as `Nat` (a `u8` value is a `Nat` below 256; theorems carry
the bound where it matters).  Strings are byte lists (`data.as_bytes()`).
The emit callback `push_str` of the core routine is modelled as explicit state
passing over an abstract sink state `σ` with failures in `Except ε`, matching
the Rust `impl FnMut(&str) -> Result<(), E>` closure.  `Cow<'_, str>` becomes
an explicit borrowed/owned sum.
-/

/-- Embeds `ascii_checker` (enc.rs line 4): true for `0-9 A-Z a-z - . _ ~`. -/
def ascii_checker (c : Nat) : Bool :=
  decide ((48 ≤ c ∧ c ≤ 57) ∨ (65 ≤ c ∧ c ≤ 90) ∨ (97 ≤ c ∧ c ≤ 122) ∨
    c = 45 ∨ c = 46 ∨ c = 95 ∨ c = 126)

/-- Embeds `to_hex_digit` (enc.rs line 164).  In Rust the `10..=255` arm
computes `b'A' - 10 + digit` in `u8` arithmetic, i.e. `(55 + digit) mod 256`. -/
def to_hex_digit (digit : Nat) : Nat :=
  if digit ≤ 9 then 48 + digit else (55 + digit) % 256

/-- Embeds the core loop `encode_into` (enc.rs line 125).  The loop variables
`data` and `pushed` of the Rust `loop` become parameters (`pushed` starts at
`false` at every call site).  `byte >> 4` is `byte / 16` and `byte & 15` is
`byte % 16`.  The Rust local `ascii_len` is inlined as
`(data.takeWhile safety_checker).length`. -/
def encode_into {σ ε : Type} (data : List Nat) (may_skip_write : Bool)
    (safety_checker : Nat → Bool) (push_str : List Nat → σ → Except ε σ)
    (pushed : Bool) (st : σ) : Except ε (Bool × σ) :=
  if data.length ≤ (data.takeWhile safety_checker).length then
    -- the safe run covers all remaining input: `(safe, rest) = (data, [])`
    if !pushed && may_skip_write then
      .ok (true, st)
    else
      match data with
      | [] => .ok (false, st)
      | _ :: _ =>
        match push_str data st with
        | .error e => .error e
        | .ok st1 => .ok (false, st1)
  else
    match (if (data.take ((data.takeWhile safety_checker).length)).isEmpty
           then Except.ok st
           else push_str (data.take ((data.takeWhile safety_checker).length)) st) with
    | .error e => .error e
    | .ok st1 =>
      match hdrop : data.drop ((data.takeWhile safety_checker).length) with
      | [] => .ok (false, st1)
      | byte :: rest2 =>
        match push_str [37, to_hex_digit (byte / 16), to_hex_digit (byte % 16)] st1 with
        | .error e => .error e
        | .ok st2 => encode_into rest2 may_skip_write safety_checker push_str true st2
termination_by data.length
decreasing_by
  have h := congrArg List.length hdrop
  simp only [List.length_drop, List.length_cons] at h
  omega

/-- The emit callback used by `append_string`: pushing onto a `String` never
fails (`Infallible` is the empty type). -/
def pushAccum (chunk acc : List Nat) : Except Empty (List Nat) :=
  .ok (acc ++ chunk)

/-- Embeds `append_string` (enc.rs line 112): runs the core loop with a
string-accumulating emit callback; returns the `unmodified` flag and the
final buffer contents. -/
def append_string (data escaped : List Nat) (may_skip : Bool)
    (safety_checker : Nat → Bool) : Bool × List Nat :=
  match encode_into data may_skip safety_checker pushAccum false escaped with
  | .ok r => r
  | .error e => e.elim

/-- Models Rust's `Cow<'_, str>`: a borrowed view of the input or an owned
freshly built buffer. -/
inductive Cow where
  | borrowed : List Nat → Cow
  | owned : List Nat → Cow
deriving DecidableEq, Repr

/-- The byte sequence a `Cow` denotes, whichever variant it is. -/
def cowBytes : Cow → List Nat
  | .borrowed s => s
  | .owned s => s

/-- Embeds `encode_binary_internal` (enc.rs line 98): fresh buffer, append
with `may_skip = true`; borrowed input if unmodified, else the owned buffer.
(The capacity reservation `data.len() | 15` has no observable effect.) -/
def encode_binary_internal (data : List Nat) (safety_checker : Nat → Bool) : Cow :=
  match append_string data [] true safety_checker with
  | (true, _) => .borrowed data
  | (false, escaped) => .owned escaped

/-- Embeds `encode` (enc.rs line 78). -/
def encode (data : List Nat) : Cow :=
  encode_binary_internal data ascii_checker

/-- Embeds `encode_exclude` (enc.rs line 85): the checker also accepts any
byte whose `char` cast (codepoint = byte value) is in `exclude`. -/
def encode_exclude (data : List Nat) (exclude : List Nat) : Cow :=
  encode_binary_internal data (fun c => ascii_checker c || exclude.contains c)

/-- Embeds `encode_binary` (enc.rs line 93). -/
def encode_binary (data : List Nat) : Cow :=
  encode_binary_internal data ascii_checker

/-- Embeds `Encoded::to_str` (enc.rs line 29). -/
def Encoded_to_str (data : List Nat) : Cow :=
  encode_binary_internal data ascii_checker

/-- Embeds `Encoded::write` (enc.rs line 42): the core loop with
`may_skip_write = false`, emitting into an abstract writer; the `Ok(true/false)`
flag is discarded as in Rust (`?; Ok(())`). -/
def Encoded_write {σ ε : Type} (data : List Nat) (writer : σ)
    (write_all : List Nat → σ → Except ε σ) : Except ε σ :=
  match encode_into data false ascii_checker write_all false writer with
  | .ok r => .ok r.2
  | .error e => .error e

/-- Embeds `Encoded::append_to` (enc.rs line 51): `append_string` on the
caller's buffer with `may_skip = false`; returns the grown buffer. -/
def Encoded_append_to (data buf : List Nat) : List Nat :=
  (append_string data buf false ascii_checker).2

/-- The 3-byte escape sequence `%XX` the loop emits for one unsafe byte. -/
def hexChunk (byte : Nat) : List Nat :=
  [37, to_hex_digit (byte / 16), to_hex_digit (byte % 16)]

/-- Per-byte output of the encoder: a safe byte passes through, an unsafe one
becomes its `%XX` escape. -/
def chunkOf (safety_checker : Nat → Bool) (b : Nat) : List Nat :=
  if safety_checker b then [b] else hexChunk b

/-- Concatenates the images of a per-byte chunk function over the input. -/
def mapChunks (g : Nat → List Nat) : List Nat → List Nat
  | [] => []
  | b :: rest => g b ++ mapChunks g rest

/-- The full encoded byte sequence of an input under a safety checker. -/
def encodeList (safety_checker : Nat → Bool) (data : List Nat) : List Nat :=
  mapChunks (chunkOf safety_checker) data

/-- The sequence of chunks the core loop hands to its emit callback when the
skip path is not taken: maximal safe runs interleaved with single escapes. -/
def chunks (safety_checker : Nat → Bool) (data : List Nat) : List (List Nat) :=
  if data.length ≤ (data.takeWhile safety_checker).length then
    match data with
    | [] => []
    | _ :: _ => [data]
  else
    match hdrop : data.drop ((data.takeWhile safety_checker).length) with
    | [] =>
      if (data.take ((data.takeWhile safety_checker).length)).isEmpty then []
      else [data.take ((data.takeWhile safety_checker).length)]
    | byte :: rest2 =>
      (if (data.take ((data.takeWhile safety_checker).length)).isEmpty then []
       else [data.take ((data.takeWhile safety_checker).length)]) ++
        (hexChunk byte :: chunks safety_checker rest2)
termination_by data.length
decreasing_by
  have h := congrArg List.length hdrop
  simp only [List.length_drop, List.length_cons] at h
  omega

/-- Concatenation of a chunk sequence back into a byte sequence. -/
def concatChunks : List (List Nat) → List Nat
  | [] => []
  | c :: cs => c ++ concatChunks cs

/-- Runs an emit callback over a chunk sequence, stopping at the first
failure.  This is the reference semantics the core loop is proved against. -/
def pushAll {σ ε : Type} (push_str : List Nat → σ → Except ε σ) :
    List (List Nat) → σ → Except ε σ
  | [], st => .ok st
  | chunk :: rest, st =>
    match push_str chunk st with
    | .error e => .error e
    | .ok st1 => pushAll push_str rest st1

/-- Instruments an emit callback with a log of the successfully emitted
chunks; a failure also reports the log at the moment of failure. -/
def pushLog {σ ε : Type} (push_str : List Nat → σ → Except ε σ) (chunk : List Nat)
    (ls : List (List Nat) × σ) : Except (ε × List (List Nat)) (List (List Nat) × σ) :=
  match push_str chunk ls.2 with
  | .ok st => .ok (ls.1 ++ [chunk], st)
  | .error e => .error (e, ls.1)

/-- An emit callback over a counter sink that fails on every call, used to
exhibit a concrete failing run of the core loop. -/
def failPush (chunk : List Nat) (n : Nat) : Except Nat Nat :=
  .error 9

/-- Value of an ASCII hex digit (reference decoder side). -/
def hexVal (c : Nat) : Nat :=
  if 48 ≤ c ∧ c ≤ 57 then c - 48
  else if 65 ≤ c ∧ c ≤ 70 then c - 55
  else if 97 ≤ c ∧ c ≤ 102 then c - 87
  else 0

/-- The reference percent-decoder of the spec: each `%XX` becomes the byte
`XX`, every other byte (including a `%` not followed by two bytes) passes
through. -/
def percentDecode : List Nat → List Nat
  | [] => []
  | [c] => [c]
  | [c, h] => [c, h]
  | c :: h :: l :: rest =>
    if c = 37 then (hexVal h * 16 + hexVal l) :: percentDecode rest
    else c :: percentDecode (h :: l :: rest)

/-- Uppercase ASCII hex digit: `0-9` or `A-F`. -/
def isUpperHexDigit (c : Nat) : Bool :=
  decide ((48 ≤ c ∧ c ≤ 57) ∨ (65 ≤ c ∧ c ≤ 70))

/-- The output alphabet claimed by the spec: the default safe set plus `%`. -/
def allowedOutputByte (c : Nat) : Bool :=
  ascii_checker c || decide (c = 37)

/-- Checks that every `%` in a byte sequence is followed by exactly two
uppercase hex digits. -/
def wellFormedPercent : List Nat → Bool
  | [] => true
  | c :: rest =>
    if c = 37 then
      match rest with
      | h :: l :: rest2 => isUpperHexDigit h && isUpperHexDigit l && wellFormedPercent rest2
      | _ => false
    else wellFormedPercent rest

/-- Output well-formedness of claim C2: ASCII, restricted alphabet, and
well-formed escapes. -/
def outputOK (out : List Nat) : Bool :=
  out.all (fun c => decide (c < 128) && allowedOutputByte c) && wellFormedPercent out

theorem takeWhile_length_le (p : Nat → Bool) :
    ∀ (l : List Nat), (l.takeWhile p).length ≤ l.length := by
  intro l
  induction l with
  | nil => simp [List.takeWhile]
  | cons x xs ih =>
    cases hp : p x <;> simp [List.takeWhile_cons, hp] <;> omega

theorem takeWhile_all_of_full (p : Nat → Bool) :
    ∀ (l : List Nat), l.length ≤ (l.takeWhile p).length → ∀ b ∈ l, p b = true := by
  intro l
  induction l with
  | nil => intro _ b hb; cases hb
  | cons x xs ih =>
    intro hlen b hb
    cases hp : p x with
    | false => simp [List.takeWhile_cons, hp] at hlen
    | true =>
      simp only [List.takeWhile_cons, hp, if_true, List.length_cons] at hlen
      rcases List.mem_cons.mp hb with rfl | hb
      · exact hp
      · exact ih (by omega) b hb

theorem encodeList_all_safe (p : Nat → Bool) :
    ∀ (l : List Nat), (∀ b ∈ l, p b = true) → encodeList p l = l := by
  intro l
  induction l with
  | nil => intro _; rfl
  | cons x xs ih =>
    intro h
    have hx : p x = true := h x (List.mem_cons_self x xs)
    have hxs := ih (fun b hb => h b (List.mem_cons_of_mem x hb))
    simp only [encodeList, mapChunks] at hxs ⊢
    simp [chunkOf, hx, hxs]

theorem mapChunks_append (g : Nat → List Nat) (a b : List Nat) :
    mapChunks g (a ++ b) = mapChunks g a ++ mapChunks g b := by
  induction a with
  | nil => rfl
  | cons x xs ih => simp [mapChunks, ih]

theorem concatChunks_append (a b : List (List Nat)) :
    concatChunks (a ++ b) = concatChunks a ++ concatChunks b := by
  induction a with
  | nil => rfl
  | cons c cs ih => simp [concatChunks, ih]

theorem pushAll_append {σ ε : Type} (push_str : List Nat → σ → Except ε σ)
    (a b : List (List Nat)) : ∀ (st : σ),
    pushAll push_str (a ++ b) st =
      match pushAll push_str a st with
      | .error e => .error e
      | .ok st1 => pushAll push_str b st1 := by
  induction a with
  | nil => intro st; rfl
  | cons c cs ih =>
    intro st
    simp only [List.cons_append, pushAll]
    cases hp : push_str c st with
    | error e => rfl
    | ok st1 => exact ih st1

theorem encode_into_cons {σ ε : Type} (data : List Nat) (may_skip : Bool)
    (p : Nat → Bool) (push_str : List Nat → σ → Except ε σ) (pushed : Bool) (st : σ)
    (byte : Nat) (rest2 : List Nat)
    (hsafe : ¬ data.length ≤ (data.takeWhile p).length)
    (hdrop : data.drop ((data.takeWhile p).length) = byte :: rest2) :
    encode_into data may_skip p push_str pushed st =
      match (if (data.take ((data.takeWhile p).length)).isEmpty
             then Except.ok st
             else push_str (data.take ((data.takeWhile p).length)) st) with
      | .error e => .error e
      | .ok st1 =>
        match push_str (hexChunk byte) st1 with
        | .error e => .error e
        | .ok st2 => encode_into rest2 may_skip p push_str true st2 := by
  rw [encode_into.eq_def, if_neg hsafe]
  cases hp1 : (if (data.take ((data.takeWhile p).length)).isEmpty
               then Except.ok st
               else push_str (data.take ((data.takeWhile p).length)) st) with
  | error e => rfl
  | ok st1 =>
    simp only
    split
    · rename_i heq
      rw [heq] at hdrop
      cases hdrop
    · rename_i byte2 rest3 heq
      rw [heq] at hdrop
      cases hdrop
      simp [hexChunk]

theorem chunks_cons (data : List Nat) (p : Nat → Bool) (byte : Nat) (rest2 : List Nat)
    (hsafe : ¬ data.length ≤ (data.takeWhile p).length)
    (hdrop : data.drop ((data.takeWhile p).length) = byte :: rest2) :
    chunks p data =
      (if (data.take ((data.takeWhile p).length)).isEmpty then []
       else [data.take ((data.takeWhile p).length)]) ++
        (hexChunk byte :: chunks p rest2) := by
  rw [chunks.eq_def, if_neg hsafe]
  split
  · rename_i heq
    rw [heq] at hdrop
    cases hdrop
  · rename_i byte2 rest3 heq
    rw [heq] at hdrop
    cases hdrop
    rfl

theorem encode_into_run {σ ε : Type} (p : Nat → Bool)
    (push_str : List Nat → σ → Except ε σ) :
    ∀ (n : Nat) (data : List Nat), data.length ≤ n →
    ∀ (may_skip pushed : Bool) (st : σ),
    encode_into data may_skip p push_str pushed st =
      if pushed = false ∧ may_skip = true ∧ data.length ≤ (data.takeWhile p).length
      then .ok (true, st)
      else
        match pushAll push_str (chunks p data) st with
        | .error e => .error e
        | .ok st1 => .ok (false, st1) := by
  intro n
  induction n with
  | zero =>
    intro data hlen may_skip pushed st
    have hd : data = [] := List.length_eq_zero.mp (Nat.le_zero.mp hlen)
    subst hd
    rw [encode_into.eq_def, chunks.eq_def]
    cases pushed <;> cases may_skip <;> simp [pushAll]
  | succ n ih =>
    intro data hlen may_skip pushed st
    by_cases hsafe : data.length ≤ (data.takeWhile p).length
    · have hpayload :
          (match data with
           | [] => (Except.ok (false, st) : Except ε (Bool × σ))
           | _ :: _ =>
             match push_str data st with
             | .error e => .error e
             | .ok st1 => .ok (false, st1)) =
          (match pushAll push_str (chunks p data) st with
           | .error e => .error e
           | .ok st1 => .ok (false, st1)) := by
        rw [chunks.eq_def, if_pos hsafe]
        cases data with
        | nil => rfl
        | cons x xs =>
          cases hp : push_str (x :: xs) st with
          | error e => simp [pushAll, hp]
          | ok st1 => simp [pushAll, hp]
      rw [encode_into.eq_def, if_pos hsafe]
      cases pushed <;> cases may_skip
      · rw [if_neg (by decide), if_neg (fun hc => Bool.noConfusion hc.2.1)]
        exact hpayload
      · rw [if_pos (by decide), if_pos ⟨rfl, rfl, hsafe⟩]
      · rw [if_neg (by decide), if_neg (fun hc => Bool.noConfusion hc.1)]
        exact hpayload
      · rw [if_neg (by decide), if_neg (fun hc => Bool.noConfusion hc.1)]
        exact hpayload
    · rcases hdd : data.drop ((data.takeWhile p).length) with _ | ⟨byte, rest2⟩
      · exfalso
        have h := congrArg List.length hdd
        simp only [List.length_drop, List.length_nil] at h
        have h2 := takeWhile_length_le p data
        omega
      · have hrest : rest2.length ≤ n := by
          have h := congrArg List.length hdd
          simp only [List.length_drop, List.length_cons] at h
          omega
        rw [encode_into_cons data may_skip p push_str pushed st byte rest2 hsafe hdd,
          chunks_cons data p byte rest2 hsafe hdd]
        rw [if_neg (show ¬(pushed = false ∧ may_skip = true ∧
              data.length ≤ (data.takeWhile p).length) from fun hc => hsafe hc.2.2),
          pushAll_append]
        cases hse : (data.take ((data.takeWhile p).length)).isEmpty with
        | true =>
          cases hp2 : push_str (hexChunk byte) st with
          | error e => simp [pushAll, hp2]
          | ok st2 =>
            simp only [eq_self_iff_true, if_true, pushAll, hp2]
            rw [ih rest2 hrest may_skip true st2]
            rw [if_neg (fun hc => Bool.noConfusion hc.1)]
        | false =>
          simp only [Bool.false_eq_true, if_false]
          cases hp1 : push_str (data.take ((data.takeWhile p).length)) st with
          | error e => simp [pushAll, hp1]
          | ok st1 =>
            simp only [pushAll, hp1]
            cases hp2 : push_str (hexChunk byte) st1 with
            | error e => simp [pushAll, hp2]
            | ok st2 =>
              simp only [pushAll, hp2]
              rw [ih rest2 hrest may_skip true st2]
              rw [if_neg (fun hc => Bool.noConfusion hc.1)]

theorem take_takeWhile_len (p : Nat → Bool) :
    ∀ (l : List Nat), l.take ((l.takeWhile p).length) = l.takeWhile p := by
  intro l
  induction l with
  | nil => rfl
  | cons x xs ih =>
    cases hp : p x with
    | false => simp [List.takeWhile_cons, hp]
    | true => simp [List.takeWhile_cons, hp, List.take_succ_cons, ih]

theorem drop_takeWhile_head_unsafe (p : Nat → Bool) :
    ∀ (l : List Nat) (b : Nat) (t : List Nat),
    l.drop ((l.takeWhile p).length) = b :: t → p b = false := by
  intro l
  induction l with
  | nil => intro b t h; cases h
  | cons x xs ih =>
    intro b t h
    cases hp : p x with
    | false =>
      simp only [List.takeWhile_cons, hp, if_false, List.length_nil, List.drop_zero] at h
      cases h
      exact hp
    | true =>
      simp only [List.takeWhile_cons, hp, if_true, List.length_cons, List.drop_succ_cons] at h
      exact ih b t h

theorem chunks_concat (p : Nat → Bool) : ∀ (n : Nat) (data : List Nat), data.length ≤ n →
    concatChunks (chunks p data) = encodeList p data := by
  intro n
  induction n with
  | zero =>
    intro data hlen
    have hd : data = [] := List.length_eq_zero.mp (Nat.le_zero.mp hlen)
    subst hd
    rw [chunks.eq_def]
    simp [concatChunks, encodeList, mapChunks]
  | succ n ih =>
    intro data hlen
    by_cases hsafe : data.length ≤ (data.takeWhile p).length
    · rw [chunks.eq_def, if_pos hsafe]
      rw [encodeList_all_safe p data (takeWhile_all_of_full p data hsafe)]
      cases data with
      | nil => rfl
      | cons x xs => simp [concatChunks]
    · rcases hdd : data.drop ((data.takeWhile p).length) with _ | ⟨byte, rest2⟩
      · exfalso
        have h := congrArg List.length hdd
        simp only [List.length_drop, List.length_nil] at h
        have h2 := takeWhile_length_le p data
        omega
      · have hrest : rest2.length ≤ n := by
          have h := congrArg List.length hdd
          simp only [List.length_drop, List.length_cons] at h
          omega
        have hunsafe : p byte = false := drop_takeWhile_head_unsafe p data byte rest2 hdd
        have htakesafe : encodeList p (data.take ((data.takeWhile p).length)) =
            data.take ((data.takeWhile p).length) := by
          apply encodeList_all_safe
          intro b hb
          rw [take_takeWhile_len p data] at hb
          exact List.mem_takeWhile_imp hb
        have hsplit : data = data.take ((data.takeWhile p).length) ++ (byte :: rest2) := by
          conv_lhs => rw [← List.take_append_drop ((data.takeWhile p).length) data, hdd]
        rw [chunks_cons data p byte rest2 hsafe hdd, concatChunks_append]
        conv_rhs => rw [hsplit]
        simp only [encodeList] at htakesafe ⊢
        rw [mapChunks_append]
        rw [show mapChunks (chunkOf p) (byte :: rest2) =
            chunkOf p byte ++ mapChunks (chunkOf p) rest2 from rfl]
        rw [show chunkOf p byte = hexChunk byte by simp [chunkOf, hunsafe]]
        have hih := ih rest2 hrest
        simp only [encodeList] at hih
        rw [htakesafe]
        by_cases hse : (data.take ((data.takeWhile p).length)).isEmpty
        · have hnil : data.take ((data.takeWhile p).length) = [] := by
            cases hk : data.take ((data.takeWhile p).length) with
            | nil => rfl
            | cons a b => rw [hk] at hse; simp [List.isEmpty] at hse
          rw [if_pos hse, hnil]
          simp [concatChunks, hih]
        · rw [if_neg hse]
          simp [concatChunks, hih]

theorem pushAll_accum : ∀ (cs : List (List Nat)) (st : List Nat),
    pushAll pushAccum cs st = .ok (st ++ concatChunks cs) := by
  intro cs
  induction cs with
  | nil => intro st; simp [pushAll, concatChunks]
  | cons c cs ih =>
    intro st
    simp [pushAll, pushAccum, concatChunks, ih, List.append_assoc]

theorem append_string_run (data escaped : List Nat) (may_skip : Bool) (p : Nat → Bool) :
    append_string data escaped may_skip p =
      if may_skip = true ∧ data.length ≤ (data.takeWhile p).length then (true, escaped)
      else (false, escaped ++ encodeList p data) := by
  unfold append_string
  rw [encode_into_run p pushAccum data.length data le_rfl may_skip false escaped]
  by_cases hc : may_skip = true ∧ data.length ≤ (data.takeWhile p).length
  · rw [if_pos ⟨rfl, hc.1, hc.2⟩, if_pos hc]
  · rw [if_neg (fun h => hc ⟨h.2.1, h.2.2⟩), if_neg hc]
    rw [pushAll_accum, chunks_concat p data.length data le_rfl]

theorem encode_binary_internal_spec (data : List Nat) (p : Nat → Bool) :
    encode_binary_internal data p =
      if data.length ≤ (data.takeWhile p).length then Cow.borrowed data
      else Cow.owned (encodeList p data) := by
  unfold encode_binary_internal
  rw [append_string_run]
  by_cases hsafe : data.length ≤ (data.takeWhile p).length
  · rw [if_pos ⟨rfl, hsafe⟩, if_pos hsafe]
  · rw [if_neg (fun h => hsafe h.2), if_neg hsafe]
    rfl

theorem cowBytes_encode_binary_internal (data : List Nat) (p : Nat → Bool) :
    cowBytes (encode_binary_internal data p) = encodeList p data := by
  rw [encode_binary_internal_spec]
  by_cases hsafe : data.length ≤ (data.takeWhile p).length
  · rw [if_pos hsafe]
    exact (encodeList_all_safe p data (takeWhile_all_of_full p data hsafe)).symm
  · rw [if_neg hsafe]
    rfl

theorem pushAll_log_ok {σ ε : Type} (push_str : List Nat → σ → Except ε σ) :
    ∀ (cs log : List (List Nat)) (st : σ) (log2 : List (List Nat)) (st2 : σ),
    pushAll (pushLog push_str) cs (log, st) = .ok (log2, st2) →
    log2 = log ++ cs ∧ pushAll push_str cs st = .ok st2 := by
  intro cs
  induction cs with
  | nil =>
    intro log st log2 st2 h
    simp only [pushAll] at h
    cases h
    simp [pushAll]
  | cons c cs ih =>
    intro log st log2 st2 h
    simp only [pushAll, pushLog] at h
    cases hp : push_str c st with
    | error e => rw [hp] at h; cases h
    | ok st1 =>
      rw [hp] at h
      simp only at h
      have := ih (log ++ [c]) st1 log2 st2 h
      refine ⟨?_, ?_⟩
      · rw [this.1, List.append_assoc]
        rfl
      · simp [pushAll, hp, this.2]

theorem pushAll_log_error {σ ε : Type} (push_str : List Nat → σ → Except ε σ) :
    ∀ (cs log : List (List Nat)) (st : σ) (e : ε) (log2 : List (List Nat)),
    pushAll (pushLog push_str) cs (log, st) = .error (e, log2) →
    ∃ done c rest, cs = done ++ c :: rest ∧ log2 = log ++ done ∧
      ∃ st1, pushAll push_str done st = .ok st1 ∧ push_str c st1 = .error e := by
  intro cs
  induction cs with
  | nil => intro log st e log2 h; simp only [pushAll] at h; cases h
  | cons c cs ih =>
    intro log st e log2 h
    simp only [pushAll, pushLog] at h
    cases hp : push_str c st with
    | error e0 =>
      rw [hp] at h
      simp only at h
      cases h
      exact ⟨[], c, cs, rfl, by simp, st, by simp [pushAll], hp⟩
    | ok st1 =>
      rw [hp] at h
      simp only at h
      obtain ⟨done, c2, rest, hcs, hlog, st2, hrun, hfail⟩ := ih (log ++ [c]) st1 e log2 h
      refine ⟨c :: done, c2, rest, by simp [hcs], ?_, st2, ?_, hfail⟩
      · rw [hlog, List.append_assoc]
        rfl
      · simp [pushAll, hp, hrun]

theorem chunks_take_prefix (p : Nat → Bool) :
    ∀ (n : Nat) (data : List Nat), data.length ≤ n → ∀ (k : Nat),
    ∃ pre post, data = pre ++ post ∧
      concatChunks ((chunks p data).take k) = encodeList p pre := by
  intro n
  induction n with
  | zero =>
    intro data hlen k
    have hd : data = [] := List.length_eq_zero.mp (Nat.le_zero.mp hlen)
    subst hd
    refine ⟨[], [], rfl, ?_⟩
    rw [chunks.eq_def]
    simp [concatChunks, encodeList, mapChunks]
  | succ n ih =>
    intro data hlen k
    by_cases hsafe : data.length ≤ (data.takeWhile p).length
    · rw [chunks.eq_def, if_pos hsafe]
      cases data with
      | nil =>
        refine ⟨[], [], rfl, ?_⟩
        simp [concatChunks, encodeList, mapChunks]
      | cons x xs =>
        cases k with
        | zero => exact ⟨[], x :: xs, rfl, by simp [concatChunks, encodeList, mapChunks]⟩
        | succ k =>
          refine ⟨x :: xs, [], by simp, ?_⟩
          simp only [List.take_succ_cons, List.take_nil, concatChunks, List.append_nil]
          exact (encodeList_all_safe p (x :: xs) (takeWhile_all_of_full p (x :: xs) hsafe)).symm
    · rcases hdd : data.drop ((data.takeWhile p).length) with _ | ⟨byte, rest2⟩
      · exfalso
        have h := congrArg List.length hdd
        simp only [List.length_drop, List.length_nil] at h
        have h2 := takeWhile_length_le p data
        omega
      · have hrest : rest2.length ≤ n := by
          have h := congrArg List.length hdd
          simp only [List.length_drop, List.length_cons] at h
          omega
        have hunsafe : p byte = false := drop_takeWhile_head_unsafe p data byte rest2 hdd
        have hsplit : data = data.take ((data.takeWhile p).length) ++ (byte :: rest2) := by
          conv_lhs => rw [← List.take_append_drop ((data.takeWhile p).length) data, hdd]
        have htakesafe : encodeList p (data.take ((data.takeWhile p).length)) =
            data.take ((data.takeWhile p).length) := by
          apply encodeList_all_safe
          intro b hb
          rw [take_takeWhile_len p data] at hb
          exact List.mem_takeWhile_imp hb
        rw [chunks_cons data p byte rest2 hsafe hdd]
        by_cases hse : (data.take ((data.takeWhile p).length)).isEmpty
        · have hnil : data.take ((data.takeWhile p).length) = [] := by
            cases hk : data.take ((data.takeWhile p).length) with
            | nil => rfl
            | cons a b => rw [hk] at hse; simp [List.isEmpty] at hse
          rw [if_pos hse, List.nil_append]
          have hdata2 : data = byte :: rest2 := by rw [hsplit, hnil, List.nil_append]
          cases k with
          | zero => exact ⟨[], data, rfl, by simp [concatChunks, encodeList, mapChunks]⟩
          | succ k =>
            obtain ⟨pre2, post2, hsplit2, hconcat2⟩ := ih rest2 hrest k
            refine ⟨byte :: pre2, post2, by simp [hdata2, hsplit2], ?_⟩
            simp only [List.take_succ_cons, concatChunks, encodeList, mapChunks]
            simp only [encodeList] at hconcat2
            rw [hconcat2]
            simp [chunkOf, hunsafe]
        · rw [if_neg hse]
          cases k with
          | zero => exact ⟨[], data, rfl, by simp [concatChunks, encodeList, mapChunks]⟩
          | succ k =>
            cases k with
            | zero =>
              refine ⟨data.take ((data.takeWhile p).length), byte :: rest2, hsplit, ?_⟩
              simp only [List.cons_append, List.take_succ_cons, List.take_nil, List.take_zero,
                concatChunks, List.append_nil]
              exact htakesafe.symm
            | succ k =>
              obtain ⟨pre2, post2, hsplit2, hconcat2⟩ := ih rest2 hrest k
              refine ⟨data.take ((data.takeWhile p).length) ++ byte :: pre2, post2, ?_, ?_⟩
              · conv_lhs => rw [hsplit, hsplit2]
                simp
              · simp only [List.cons_append, List.take_succ_cons, concatChunks]
                simp only [encodeList] at hconcat2 htakesafe ⊢
                rw [hconcat2, mapChunks_append]
                rw [show mapChunks (chunkOf p) (byte :: pre2) =
                    chunkOf p byte ++ mapChunks (chunkOf p) pre2 from rfl]
                rw [htakesafe]
                simp [chunkOf, hunsafe]

theorem hexVal_to_hex_digit (d : Nat) (hd : d ≤ 15) : hexVal (to_hex_digit d) = d := by
  simp only [to_hex_digit, hexVal]
  split_ifs <;> omega

theorem to_hex_digit_allowed (d : Nat) (hd : d ≤ 15) :
    to_hex_digit d < 128 ∧ ascii_checker (to_hex_digit d) = true := by
  simp only [to_hex_digit, ascii_checker, decide_eq_true_eq]
  split_ifs <;> exact ⟨by omega, by omega⟩

theorem isUpperHexDigit_to_hex_digit (d : Nat) (hd : d ≤ 15) :
    isUpperHexDigit (to_hex_digit d) = true := by
  simp only [to_hex_digit, isUpperHexDigit, decide_eq_true_eq]
  split_ifs <;> omega

theorem percentDecode_cons_ne (b : Nat) (hbne : ¬ b = 37) :
    ∀ (t : List Nat), percentDecode (b :: t) = b :: percentDecode t := by
  intro t
  rcases t with _ | ⟨h, _ | ⟨l, rest⟩⟩
  · rfl
  · rfl
  · simp [percentDecode, hbne]

theorem percentDecode_escape (hh ll : Nat) (t : List Nat) :
    percentDecode (37 :: hh :: ll :: t) = (hexVal hh * 16 + hexVal ll) :: percentDecode t := by
  simp [percentDecode]

theorem percentDecode_encodeList (p : Nat → Bool) (h37 : p 37 = false) :
    ∀ (data : List Nat), (∀ b ∈ data, b < 256) →
    percentDecode (encodeList p data) = data := by
  intro data
  induction data with
  | nil => intro _; rfl
  | cons b rest ih =>
    intro hb
    have hblt : b < 256 := hb b (List.mem_cons_self b rest)
    have hrest := ih (fun x hx => hb x (List.mem_cons_of_mem b hx))
    simp only [encodeList, mapChunks, chunkOf] at hrest ⊢
    cases hpb : p b with
    | true =>
      rw [if_pos rfl]
      have hbne : ¬ b = 37 := fun he => by rw [he, h37] at hpb; cases hpb
      rw [List.singleton_append, percentDecode_cons_ne b hbne, hrest]
    | false =>
      rw [if_neg (fun hcontra => Bool.noConfusion hcontra)]
      rw [show hexChunk b ++ mapChunks (chunkOf p) rest =
        37 :: to_hex_digit (b / 16) :: to_hex_digit (b % 16) :: mapChunks (chunkOf p) rest from rfl]
      rw [percentDecode_escape, hrest,
        hexVal_to_hex_digit (b / 16) (by omega), hexVal_to_hex_digit (b % 16) (by omega)]
      congr 1
      omega

theorem encodeList_length_ge (p : Nat → Bool) :
    ∀ (l : List Nat), l.length ≤ (encodeList p l).length := by
  intro l
  induction l with
  | nil => simp [encodeList, mapChunks]
  | cons b rest ih =>
    simp only [encodeList, mapChunks, List.length_append, List.length_cons] at ih ⊢
    cases hpb : p b <;> simp [chunkOf, hpb, hexChunk] <;> omega

theorem encodeList_length_gt (p : Nat → Bool) :
    ∀ (l : List Nat), (∃ b ∈ l, p b = false) → l.length < (encodeList p l).length := by
  intro l
  induction l with
  | nil => rintro ⟨b, hb, _⟩; cases hb
  | cons x rest ih =>
    rintro ⟨b, hb, hpb⟩
    have hge := encodeList_length_ge p rest
    simp only [encodeList, mapChunks, List.length_append, List.length_cons] at hge ⊢
    rcases List.mem_cons.mp hb with rfl | hb2
    · simp [chunkOf, hpb, hexChunk]
      omega
    · have hlt := ih ⟨b, hb2, hpb⟩
      simp only [encodeList, mapChunks, List.length_append] at hlt
      have hch : 1 ≤ (chunkOf p x).length := by
        cases hpx : p x <;> simp [chunkOf, hpx, hexChunk]
      omega

theorem mem37_encodeList (p : Nat → Bool) :
    ∀ (l : List Nat), (∃ b ∈ l, p b = false) → 37 ∈ encodeList p l := by
  intro l
  induction l with
  | nil => rintro ⟨b, hb, _⟩; cases hb
  | cons x rest ih =>
    rintro ⟨b, hb, hpb⟩
    simp only [encodeList, mapChunks, List.mem_append]
    rcases List.mem_cons.mp hb with rfl | hb2
    · left
      simp [chunkOf, hpb, hexChunk]
    · right
      have := ih ⟨b, hb2, hpb⟩
      simpa [encodeList] using this

theorem encodeList_allowed (data : List Nat) (hdata : ∀ b ∈ data, b < 256) :
    ∀ c ∈ encodeList ascii_checker data, c < 128 ∧ allowedOutputByte c = true := by
  induction data with
  | nil => intro c hc; cases hc
  | cons b rest ih =>
    intro c hc
    have hblt : b < 256 := hdata b (List.mem_cons_self b rest)
    have hrest := ih (fun x hx => hdata x (List.mem_cons_of_mem b hx))
    simp only [encodeList, mapChunks, List.mem_append] at hc
    rcases hc with hc | hc
    · cases hpb : ascii_checker b with
      | true =>
        rw [chunkOf, if_pos hpb] at hc
        rcases List.mem_cons.mp hc with rfl | hc2
        · constructor
          · simp only [ascii_checker, decide_eq_true_eq] at hpb
            omega
          · simp [allowedOutputByte, hpb]
        · cases hc2
      | false =>
        rw [chunkOf, if_neg (by simp [hpb])] at hc
        simp only [hexChunk, List.mem_cons] at hc
        rcases hc with rfl | rfl | rfl | hc
        · exact ⟨by omega, by simp [allowedOutputByte]⟩
        · have h := to_hex_digit_allowed (b / 16) (by omega)
          exact ⟨h.1, by simp [allowedOutputByte, h.2]⟩
        · have h := to_hex_digit_allowed (b % 16) (by omega)
          exact ⟨h.1, by simp [allowedOutputByte, h.2]⟩
        · cases hc
    · exact hrest c (by simpa [encodeList] using hc)

theorem wellFormedPercent_cons_ne (b : Nat) (hbne : ¬ b = 37) :
    ∀ (t : List Nat), wellFormedPercent (b :: t) = wellFormedPercent t := by
  intro t
  rcases t with _ | ⟨h, _ | ⟨l, rest⟩⟩ <;> simp [wellFormedPercent, hbne]

theorem wellFormedPercent_escape (hh ll : Nat) (t : List Nat) :
    wellFormedPercent (37 :: hh :: ll :: t) =
      (isUpperHexDigit hh && isUpperHexDigit ll && wellFormedPercent t) := by
  simp [wellFormedPercent]

theorem encodeList_wellFormed (data : List Nat) (hdata : ∀ b ∈ data, b < 256) :
    wellFormedPercent (encodeList ascii_checker data) = true := by
  induction data with
  | nil => rfl
  | cons b rest ih =>
    have hblt : b < 256 := hdata b (List.mem_cons_self b rest)
    have hrest := ih (fun x hx => hdata x (List.mem_cons_of_mem b hx))
    simp only [encodeList, mapChunks] at hrest ⊢
    cases hpb : ascii_checker b with
    | true =>
      rw [chunkOf, if_pos hpb, List.singleton_append]
      have hbne : ¬ b = 37 := fun he => by
        rw [he] at hpb
        have : ascii_checker 37 = false := by decide
        rw [this] at hpb
        cases hpb
      rw [wellFormedPercent_cons_ne b hbne]
      exact hrest
    | false =>
      rw [chunkOf, if_neg (by simp [hpb])]
      rw [show hexChunk b ++ mapChunks (chunkOf ascii_checker) rest =
        37 :: to_hex_digit (b / 16) :: to_hex_digit (b % 16) ::
          mapChunks (chunkOf ascii_checker) rest from rfl]
      rw [wellFormedPercent_escape]
      rw [isUpperHexDigit_to_hex_digit (b / 16) (by omega),
        isUpperHexDigit_to_hex_digit (b % 16) (by omega)]
      simp [hrest]

theorem pushAll_total {σ ε : Type} (emit : List Nat → σ → σ) :
    ∀ (cs : List (List Nat)) (st : σ),
    pushAll (fun c s => (.ok (emit c s) : Except ε σ)) cs st =
      .ok (List.foldl (fun s c => emit c s) st cs) := by
  intro cs
  induction cs with
  | nil => intro st; rfl
  | cons c cs ih => intro st; exact ih (emit c st)

theorem Encoded_write_accum (data st : List Nat) :
    Encoded_write data st pushAccum = .ok (st ++ encodeList ascii_checker data) := by
  unfold Encoded_write
  rw [encode_into_run ascii_checker pushAccum data.length data le_rfl false false st]
  rw [if_neg (fun hc => Bool.noConfusion hc.2.1)]
  rw [pushAll_accum, chunks_concat ascii_checker data.length data le_rfl]

theorem outputOK_encodeList (data : List Nat) (hdata : ∀ b ∈ data, b < 256) :
    outputOK (encodeList ascii_checker data) = true := by
  unfold outputOK
  rw [Bool.and_eq_true]
  constructor
  · rw [List.all_eq_true]
    intro c hc
    have h := encodeList_allowed data hdata c hc
    rw [Bool.and_eq_true]
    exact ⟨by simpa using h.1, h.2⟩
  · exact encodeList_wellFormed data hdata

theorem exclude_empty_checker :
    (fun c => ascii_checker c || List.contains [] c) = ascii_checker := by
  funext c
  simp [List.contains]

/-- Claim C1: decoding any output of `encode`, `encode_binary`, or
`encode_exclude` with an empty exclusion list by the reference
percent-decoder reproduces the original byte sequence (round-trip law). -/
theorem claim_C1 (data : List Nat) (hdata : ∀ b ∈ data, b < 256) :
    percentDecode (cowBytes (encode data)) = data ∧
    percentDecode (cowBytes (encode_binary data)) = data ∧
    percentDecode (cowBytes (encode_exclude data [])) = data := by
  refine ⟨?_, ?_, ?_⟩
  · rw [encode, cowBytes_encode_binary_internal]
    exact percentDecode_encodeList ascii_checker (by decide) data hdata
  · rw [encode_binary, cowBytes_encode_binary_internal]
    exact percentDecode_encodeList ascii_checker (by decide) data hdata
  · rw [encode_exclude, cowBytes_encode_binary_internal]
    exact percentDecode_encodeList (fun c => ascii_checker c || List.contains [] c)
      (by decide) data hdata

/-- Witness for C1 at the concrete input `[0xFF, 0x00, b'A']`. -/
theorem claim_C1_witness :
    percentDecode (cowBytes (encode [255, 0, 65])) = [255, 0, 65] ∧
    percentDecode (cowBytes (encode_binary [255, 0, 65])) = [255, 0, 65] ∧
    percentDecode (cowBytes (encode_exclude [255, 0, 65] [])) = [255, 0, 65] :=
  claim_C1 [255, 0, 65] (by decide)

/-- Counterexample to claim C2 as stated: `encode_exclude` with exclusion
list `['/']` emits the byte `/` (47), which is outside the claimed output
alphabet `[0-9A-Za-z]` plus `- . _ ~ %`. -/
theorem claim_C2_counterexample :
    cowBytes (encode_exclude [47] [47]) = [47] ∧ allowedOutputByte 47 = false := by
  constructor
  · rw [encode_exclude, cowBytes_encode_binary_internal]
    decide
  · decide

/-- Claim C2 (amended): every output of `encode`, `encode_binary`, the
`Encoded` adapters, and `encode_exclude` with an EMPTY exclusion list is
ASCII, uses only `[0-9A-Za-z]`, `- . _ ~ %`, and every `%` is followed by
exactly two uppercase hex digits. -/
theorem claim_C2 (data : List Nat) (hdata : ∀ b ∈ data, b < 256) :
    outputOK (cowBytes (encode data)) = true ∧
    outputOK (cowBytes (encode_binary data)) = true ∧
    outputOK (cowBytes (Encoded_to_str data)) = true ∧
    outputOK (cowBytes (encode_exclude data [])) = true ∧
    outputOK (Encoded_append_to data []) = true ∧
    Encoded_write data [] pushAccum = .ok (cowBytes (encode data)) := by
  have hok := outputOK_encodeList data hdata
  have henc : cowBytes (encode data) = encodeList ascii_checker data := by
    rw [encode, cowBytes_encode_binary_internal]
  refine ⟨by rw [henc]; exact hok, ?_, ?_, ?_, ?_, ?_⟩
  · rw [encode_binary, cowBytes_encode_binary_internal]
    exact hok
  · rw [Encoded_to_str, cowBytes_encode_binary_internal]
    exact hok
  · rw [encode_exclude, cowBytes_encode_binary_internal, exclude_empty_checker]
    exact hok
  · rw [Encoded_append_to, append_string_run,
      if_neg (fun hc => Bool.noConfusion hc.1)]
    simpa using hok
  · rw [Encoded_write_accum, henc]
    simp

/-- Witness for the amended C2 at the concrete input `"a b"`. -/
theorem claim_C2_witness :
    outputOK (cowBytes (encode [97, 32, 98])) = true ∧
    outputOK (cowBytes (encode_binary [97, 32, 98])) = true ∧
    outputOK (cowBytes (Encoded_to_str [97, 32, 98])) = true ∧
    outputOK (cowBytes (encode_exclude [97, 32, 98] [])) = true ∧
    outputOK (Encoded_append_to [97, 32, 98] []) = true ∧
    Encoded_write [97, 32, 98] [] pushAccum = .ok (cowBytes (encode [97, 32, 98])) :=
  claim_C2 [97, 32, 98] (by decide)

/-- Claim C3: every character in the exclusion list passes through
`encode_exclude` unescaped wherever it occurs: the output decomposes
per input byte, with each occurrence of the excluded character mapped
to itself. -/
theorem claim_C3 (data exclude : List Nat) (c : Nat) (hc : c ∈ exclude) :
    ∃ g : Nat → List Nat,
      cowBytes (encode_exclude data exclude) = mapChunks g data ∧ g c = [c] := by
  refine ⟨chunkOf (fun b => ascii_checker b || exclude.contains b), ?_, ?_⟩
  · rw [encode_exclude, cowBytes_encode_binary_internal]
    rfl
  · have hcon : exclude.contains c = true := by
      simp [List.contains, List.elem_iff, hc]
    simp only [chunkOf]
    rw [if_pos (by rw [hcon, Bool.or_true])]

/-- Witness for C3: `"/path/to/resource"` with exclusion list `['/']`. -/
theorem claim_C3_witness :
    ∃ g : Nat → List Nat,
      cowBytes (encode_exclude
        [47, 112, 97, 116, 104, 47, 116, 111, 47, 114, 101, 115, 111, 117, 114, 99, 101]
        [47]) =
        mapChunks g
          [47, 112, 97, 116, 104, 47, 116, 111, 47, 114, 101, 115, 111, 117, 114, 99, 101] ∧
      g 47 = [47] :=
  claim_C3 [47, 112, 97, 116, 104, 47, 116, 111, 47, 114, 101, 115, 111, 117, 114, 99, 101]
    [47] 47 (by decide)

/-- Claim C4: on inputs made only of default-safe bytes, `encode` and
`encode_binary` return the input itself as a borrowed (non-allocated)
view. -/
theorem claim_C4 (data : List Nat) (hsafe : ∀ b ∈ data, ascii_checker b = true) :
    encode data = Cow.borrowed data ∧ encode_binary data = Cow.borrowed data := by
  have hlen : data.length ≤ (data.takeWhile ascii_checker).length := by
    rw [List.takeWhile_eq_self_iff.mpr (fun x hx => hsafe x hx)]
  constructor
  · rw [encode, encode_binary_internal_spec, if_pos hlen]
  · rw [encode_binary, encode_binary_internal_spec, if_pos hlen]

/-- Witness for C4 at `"safe-chars_.~"` and at the empty input. -/
theorem claim_C4_witness :
    (encode [115, 97, 102, 101, 45, 99, 104, 97, 114, 115, 95, 46, 126] =
        Cow.borrowed [115, 97, 102, 101, 45, 99, 104, 97, 114, 115, 95, 46, 126] ∧
      encode_binary [115, 97, 102, 101, 45, 99, 104, 97, 114, 115, 95, 46, 126] =
        Cow.borrowed [115, 97, 102, 101, 45, 99, 104, 97, 114, 115, 95, 46, 126]) ∧
    (encode [] = Cow.borrowed [] ∧ encode_binary [] = Cow.borrowed []) :=
  ⟨claim_C4 [115, 97, 102, 101, 45, 99, 104, 97, 114, 115, 95, 46, 126] (by decide),
    claim_C4 [] (by decide)⟩

/-- Claim C5: encoding is not idempotent on inputs containing an unsafe
byte: re-encoding the encoded output changes it. -/
theorem claim_C5 (x : List Nat) (hx : ∃ b ∈ x, ascii_checker b = false) :
    cowBytes (encode (cowBytes (encode x))) ≠ cowBytes (encode x) := by
  have hy : cowBytes (encode x) = encodeList ascii_checker x := by
    rw [encode, cowBytes_encode_binary_internal]
  have h37 : 37 ∈ encodeList ascii_checker x := mem37_encodeList ascii_checker x hx
  rw [hy]
  rw [encode, cowBytes_encode_binary_internal]
  intro heq
  have hlt := encodeList_length_gt ascii_checker (encodeList ascii_checker x)
    ⟨37, h37, by decide⟩
  rw [heq] at hlt
  exact lt_irrefl _ hlt

/-- Witness for C5 at `"hello!"`. -/
theorem claim_C5_witness :
    cowBytes (encode (cowBytes (encode [104, 101, 108, 108, 111, 33]))) ≠
      cowBytes (encode [104, 101, 108, 108, 111, 33]) :=
  claim_C5 [104, 101, 108, 108, 111, 33] ⟨33, by decide, by decide⟩

/-- Claim C6: unsafe bytes are emitted as `%` plus the uppercase hex digits
of high and low nibble, where `v < 10` maps to `'0' + v` and `10 ≤ v ≤ 15`
maps to `'A' - 10 + v`; concretely `encode "hello!" = "hello%21"`,
`encode "a b" = "a%20b"`, `encode_binary [0xFF, 0x00, b'A'] = "%FF%00A"`. -/
theorem claim_C6 :
    (∀ v, v < 10 → to_hex_digit v = 48 + v) ∧
    (∀ v, 10 ≤ v → v ≤ 15 → to_hex_digit v = 65 - 10 + v) ∧
    (∀ data, cowBytes (encode_binary data) =
      mapChunks (chunkOf ascii_checker) data) ∧
    cowBytes (encode [104, 101, 108, 108, 111, 33]) =
      [104, 101, 108, 108, 111, 37, 50, 49] ∧
    cowBytes (encode [97, 32, 98]) = [97, 37, 50, 48, 98] ∧
    cowBytes (encode_binary [255, 0, 65]) = [37, 70, 70, 37, 48, 48, 65] := by
  refine ⟨?_, ?_, ?_, ?_, ?_, ?_⟩
  · intro v hv
    rw [to_hex_digit, if_pos (by omega)]
  · intro v hv1 hv2
    rw [to_hex_digit, if_neg (by omega), Nat.mod_eq_of_lt (by omega)]
  · intro data
    rw [encode_binary, cowBytes_encode_binary_internal]
    rfl
  · rw [encode, cowBytes_encode_binary_internal]
    decide
  · rw [encode, cowBytes_encode_binary_internal]
    decide
  · rw [encode_binary, cowBytes_encode_binary_internal]
    decide

/-- Witness for the conditional parts of C6, at nibble values 2 and 15. -/
theorem claim_C6_witness :
    to_hex_digit 2 = 48 + 2 ∧ to_hex_digit 15 = 65 - 10 + 15 :=
  ⟨claim_C6.1 2 (by decide), claim_C6.2.1 15 (by decide) (by decide)⟩

/-- Claim C9: `Encoded::append_to` grows the caller's buffer in place to the
prior content followed by the encoding of the input, never skipping (the
`may_skip` flag is `false` and `append_string` reports `unmodified = false`). -/
theorem claim_C9 (data buf : List Nat) :
    Encoded_append_to data buf = buf ++ cowBytes (encode data) ∧
    append_string data buf false ascii_checker =
      (false, buf ++ cowBytes (encode data)) := by
  have h := append_string_run data buf false ascii_checker
  rw [if_neg (fun hc => Bool.noConfusion hc.1)] at h
  rw [encode, cowBytes_encode_binary_internal]
  exact ⟨by rw [Encoded_append_to, h], h⟩

/-- Claim C10: `to_hex_digit` is only applied to the nibbles of a byte,
which lie in `0..=15`; on that domain the `u8` arithmetic cannot overflow
and the result is an uppercase ASCII hex digit. -/
theorem claim_C10 (byte : Nat) (hb : byte < 256) :
    byte / 16 ≤ 15 ∧ byte % 16 ≤ 15 ∧
    (∀ v, v ≤ 15 →
      (48 + v < 256 ∧ 55 + v < 256) ∧
      to_hex_digit v = (if v ≤ 9 then 48 + v else 55 + v) ∧
      isUpperHexDigit (to_hex_digit v) = true ∧
      ascii_checker (to_hex_digit v) = true) := by
  refine ⟨by omega, by omega, ?_⟩
  intro v hv
  refine ⟨⟨by omega, by omega⟩, ?_, isUpperHexDigit_to_hex_digit v hv,
    (to_hex_digit_allowed v hv).2⟩
  rw [to_hex_digit]
  by_cases h9 : v ≤ 9
  · rw [if_pos h9, if_pos h9]
  · rw [if_neg h9, if_neg h9, Nat.mod_eq_of_lt (by omega)]

/-- Witness for C10 at byte 255 and nibble 15. -/
theorem claim_C10_witness :
    (255 : Nat) / 16 ≤ 15 ∧ (255 : Nat) % 16 ≤ 15 ∧
    (∀ v, v ≤ 15 →
      (48 + v < 256 ∧ 55 + v < 256) ∧
      to_hex_digit v = (if v ≤ 9 then 48 + v else 55 + v) ∧
      isUpperHexDigit (to_hex_digit v) = true ∧
      ascii_checker (to_hex_digit v) = true) :=
  claim_C10 255 (by decide)

/-- Claim C8: with a sink whose writes all succeed, `Encoded::write` (and the
identical `Display` path) never takes the skip-on-unchanged shortcut (the
core loop reports `false`) and feeds the sink exactly the chunk sequence
`chunks`, whose concatenation is byte-for-byte the output of `encode`;
concretely, streaming `"<tag>"` delivers exactly the bytes `%3Ctag%3E`. -/
theorem claim_C8 {σ ε : Type} (emit : List Nat → σ → σ) (st : σ) (data : List Nat) :
    encode_into data false ascii_checker (fun c s => (.ok (emit c s) : Except ε σ))
        false st =
      .ok (false, List.foldl (fun s c => emit c s) st (chunks ascii_checker data)) ∧
    concatChunks (chunks ascii_checker data) = cowBytes (encode data) ∧
    Encoded_write data st (fun c s => (.ok (emit c s) : Except ε σ)) =
      .ok (List.foldl (fun s c => emit c s) st (chunks ascii_checker data)) ∧
    Encoded_write [60, 116, 97, 103, 62] ([] : List Nat) pushAccum =
      .ok [37, 51, 67, 116, 97, 103, 37, 51, 69] := by
  have hrun := encode_into_run ascii_checker
    (fun c s => (.ok (emit c s) : Except ε σ)) data.length data le_rfl false false st
  rw [if_neg (fun hc => Bool.noConfusion hc.2.1), pushAll_total] at hrun
  refine ⟨hrun, ?_, ?_, ?_⟩
  · rw [chunks_concat ascii_checker data.length data le_rfl, encode,
      cowBytes_encode_binary_internal]
  · rw [Encoded_write, hrun]
  · rw [Encoded_write_accum]
    simp only [Except.ok.injEq, List.nil_append]
    decide

/-- Claim C7: for any emit callback, if a push fails the core loop aborts at
that push and propagates the failure verbatim, and the chunks successfully
emitted before the failure are exactly the encoding of a prefix of the
input; on a successful non-skipping run the emitted chunks are exactly the
encoding of the whole input (nothing emitted twice, nothing dropped). -/
theorem claim_C7 {σ ε : Type} (push_str : List Nat → σ → Except ε σ) (p : Nat → Bool)
    (may_skip : Bool) (data : List Nat) (st : σ) :
    (∀ (e : ε) (log : List (List Nat)),
      encode_into data may_skip p (pushLog push_str) false ([], st) = .error (e, log) →
      ((∃ pre post, data = pre ++ post ∧ concatChunks log = encodeList p pre) ∧
       (∃ st1 chunk, pushAll push_str log st = .ok st1 ∧
         push_str chunk st1 = .error e))) ∧
    (∀ (b : Bool) (log : List (List Nat)) (st1 : σ),
      encode_into data may_skip p (pushLog push_str) false ([], st) = .ok (b, (log, st1)) →
      (b = true → log = [] ∧ st1 = st) ∧
      (b = false → concatChunks log = encodeList p data ∧
        pushAll push_str log st = .ok st1)) := by
  rw [encode_into_run p (pushLog push_str) data.length data le_rfl may_skip false ([], st)]
  by_cases hc : (false = false ∧ may_skip = true ∧
      data.length ≤ (data.takeWhile p).length)
  · rw [if_pos hc]
    constructor
    · intro e log h
      cases h
    · intro b log st1 h
      simp only [Except.ok.injEq, Prod.mk.injEq] at h
      obtain ⟨hb, hlog, hst⟩ := h
      constructor
      · intro _
        exact ⟨hlog.symm, hst.symm⟩
      · intro hfalse
        rw [← hb] at hfalse
        cases hfalse
  · rw [if_neg hc]
    cases hrun : pushAll (pushLog push_str) (chunks p data) ([], st) with
    | error epair =>
      constructor
      · intro e log h
        simp only [Except.error.injEq] at h
        subst h
        obtain ⟨done, c2, restcs, hcs, hlog, st1, hdone, hfail⟩ :=
          pushAll_log_error push_str (chunks p data) [] st e log hrun
        rw [List.nil_append] at hlog
        subst hlog
        constructor
        · obtain ⟨pre, post, hsp, hcon⟩ :=
            chunks_take_prefix p data.length data le_rfl log.length
          refine ⟨pre, post, hsp, ?_⟩
          rw [← hcon]
          congr 1
          rw [hcs, List.take_left]
        · exact ⟨st1, c2, hdone, hfail⟩
      · intro b log st1 h
        cases h
    | ok lp =>
      constructor
      · intro e log h
        cases h
      · intro b log st1 h
        simp only [Except.ok.injEq, Prod.mk.injEq] at h
        obtain ⟨hb, hlp⟩ := h
        constructor
        · intro htrue
          rw [htrue] at hb
          cases hb
        · intro _
          obtain ⟨hlog, hok⟩ := pushAll_log_ok push_str (chunks p data) [] st log st1
            (by rw [hrun]; rw [show lp = (log, st1) from hlp])
          rw [List.nil_append] at hlog
          subst hlog
          exact ⟨chunks_concat p data.length data le_rfl, hok⟩

/-- Witness for C7: a sink that fails immediately, on input `" "`; the
failure code 9 is propagated verbatim and nothing was emitted. -/
theorem claim_C7_witness :
    (∃ pre post, ([32] : List Nat) = pre ++ post ∧
      concatChunks [] = encodeList ascii_checker pre) ∧
    (∃ (st1 : Nat) (chunk : List Nat),
      pushAll failPush [] 0 = .ok st1 ∧ failPush chunk st1 = .error 9) :=
  (claim_C7 failPush ascii_checker false [32] 0).1 9 [] (by
    rw [encode_into_run ascii_checker (pushLog failPush) 1 [32] (by decide)
      false false ([], 0), chunks.eq_def]
    rfl)
